import Mathlib

/-!
Verification of the Bloom filter in `BloomFilterHW.py`.

The Python class `BloomFilter` is shallowly embedded here:

* the bit vector becomes a `List Bool` (entry `true` = bit set to 1);
* the external hash oracle `BitHash` becomes an arbitrary function
  `hash : κ → ℕ → ℕ` mapping a key and a seed to a raw hash value
  (determinism of the oracle for a fixed (key, seed) pair is exactly
  being a function);
* Python float arithmetic in `__bitsNeeded` is idealised as exact real
  arithmetic, and the float arithmetic of `falsePositiveRate` (integer
  subtraction, division, integer power) as exact rational arithmetic;
* `insert` and `find` are modelled by loops that return, besides their
  visible result, the number of calls made to the hash oracle, so that
  call-count properties can be stated.
-/

/-- State of a `BloomFilter` object: the private attributes `__size`
(number of bits), `__numHashes`, `__bitVec` and `__numBitsSet` of the
Python class.  (`__numKeys` and `__maxFalse` are stored by `__init__`
but never read afterwards, so they are omitted from the state.) -/
structure BloomFilter where
  size : ℕ
  numHashes : ℕ
  bitVec : List Bool
  numBitsSet : ℕ
  deriving DecidableEq, Repr

/-- Python `int(x)`: truncation of a real number toward zero. -/
noncomputable def pyInt (x : ℝ) : ℤ :=
  if 0 ≤ x then ⌊x⌋ else -⌊-x⌋

/-- Real-valued body of `BloomFilter.__bitsNeeded`:
`val = 1 - maxFalsePositive ** (1 / numHashes)` and
`bits = numHashes / (1 - val ** (1 / numKeys))`. -/
noncomputable def bitsNeededR (numKeys numHashes : ℕ) (maxFalsePositive : ℝ) : ℝ :=
  let val : ℝ := 1 - maxFalsePositive ^ ((1 : ℝ) / (numHashes : ℝ))
  (numHashes : ℝ) / (1 - val ^ ((1 : ℝ) / (numKeys : ℝ)))

/-- Embedding of `BloomFilter.__bitsNeeded`: the real-valued formula truncated by
Python `int(...)`. -/
noncomputable def bitsNeeded (numKeys numHashes : ℕ) (maxFalsePositive : ℝ) : ℤ :=
  pyInt (bitsNeededR numKeys numHashes maxFalsePositive)

/-- Embedding of `BloomFilter.__init__(numKeys, numHashes, maxFalsePositive)`:
computes `__size` with `__bitsNeeded`, allocates `BitVector(size = __size)`
(all bits 0) and sets `__numBitsSet = 0`. -/
noncomputable def BloomFilter.create (numKeys numHashes : ℕ) (maxFalsePositive : ℝ) :
    BloomFilter :=
  let size := (bitsNeeded numKeys numHashes maxFalsePositive).toNat
  ⟨size, numHashes, List.replicate size false, 0⟩

/-- Sequence of probed bit positions produced by the seeded rehashing
chain shared by `insert` and `find`: starting from `seed`, repeatedly
`rawHash = hash key seed`, probe `rawHash % size`, and use `rawHash` as
the next seed; `n` is the number of remaining iterations. -/
def probeSeq {κ : Type} (hash : κ → ℕ → ℕ) (size : ℕ) (key : κ) : ℕ → ℕ → List ℕ
  | 0, _ => []
  | Nat.succ n, seed =>
      let rawHash := hash key seed
      rawHash % size :: probeSeq hash size key n rawHash

/-- Loop body of `BloomFilter.insert`, carrying the bit vector and the
`__numBitsSet` counter through the `for i in range(numHashes)` loop.
Returns the final bit vector, the final counter, and the number of calls
made to the hash oracle. -/
def insertLoop {κ : Type} (hash : κ → ℕ → ℕ) (size : ℕ) (key : κ) :
    ℕ → ℕ → List Bool → ℕ → List Bool × ℕ × ℕ
  | 0, _, bits, cnt => (bits, cnt, 0)
  | Nat.succ n, seed, bits, cnt =>
      let rawHash := hash key seed
      let hashVal := rawHash % size
      let next :=
        if bits.getD hashVal false = false then
          insertLoop hash size key n rawHash (bits.set hashVal true) (cnt + 1)
        else
          insertLoop hash size key n rawHash bits cnt
      (next.1, next.2.1, next.2.2 + 1)

/-- Embedding of `BloomFilter.insert(key)`: run the hashing loop from seed 0 over
`__numHashes` iterations, updating `__bitVec` and `__numBitsSet`. -/
def BloomFilter.insert {κ : Type} (hash : κ → ℕ → ℕ) (f : BloomFilter) (key : κ) :
    BloomFilter :=
  let r := insertLoop hash f.size key f.numHashes 0 f.bitVec f.numBitsSet
  { f with bitVec := r.1, numBitsSet := r.2.1 }

/-- Number of calls to the hash oracle made by one `insert(key)`. -/
def BloomFilter.insertCalls {κ : Type} (hash : κ → ℕ → ℕ) (f : BloomFilter) (key : κ) : ℕ :=
  (insertLoop hash f.size key f.numHashes 0 f.bitVec f.numBitsSet).2.2

/-- Loop body of `BloomFilter.find`: probes bits along the seed chain and
returns `False` as soon as a probed bit is 0, together with the number of
calls made to the hash oracle. -/
def findLoop {κ : Type} (hash : κ → ℕ → ℕ) (size : ℕ) (bits : List Bool) (key : κ) :
    ℕ → ℕ → Bool × ℕ
  | 0, _ => (true, 0)
  | Nat.succ n, seed =>
      let rawHash := hash key seed
      let hashVal := rawHash % size
      if bits.getD hashVal false = false then (false, 1)
      else
        let r := findLoop hash size bits key n rawHash
        (r.1, r.2 + 1)

/-- Embedding of `BloomFilter.find(key)`: result of the probing loop from seed 0. -/
def BloomFilter.find {κ : Type} (hash : κ → ℕ → ℕ) (f : BloomFilter) (key : κ) : Bool :=
  (findLoop hash f.size f.bitVec key f.numHashes 0).1

/-- Number of calls to the hash oracle made by one `find(key)`. -/
def BloomFilter.findCalls {κ : Type} (hash : κ → ℕ → ℕ) (f : BloomFilter) (key : κ) : ℕ :=
  (findLoop hash f.size f.bitVec key f.numHashes 0).2

/-- Embedding of `BloomFilter.numBitsSet()`: returns the `__numBitsSet` attribute. -/
def BloomFilter.numBitsSetFn (f : BloomFilter) : ℕ :=
  f.numBitsSet

/-- Embedding of `BloomFilter.falsePositiveRate()`: `numBitsZero = __size - numBitsSet`,
`prop = numBitsZero / __size`, result `(1 - prop) ** __numHashes`,
idealised over exact rationals. -/
def BloomFilter.falsePositiveRate (f : BloomFilter) : ℚ :=
  let numBitsSet : ℚ := (f.numBitsSetFn : ℚ)
  let numBitsZero : ℚ := (f.size : ℚ) - numBitsSet
  let prop : ℚ := numBitsZero / (f.size : ℚ)
  (1 - prop) ^ f.numHashes

/-- Filter states reachable from a construction with valid parameters
(`numKeys ≥ 1`, `numHashes ≥ 1`, `0 < maxFalsePositive < 1`) by any
sequence of operations.  `find`, `falsePositiveRate` and `numBitsSet`
do not modify the state, so `insert` is the only state-changing step. -/
inductive BloomFilter.Reachable {κ : Type} (hash : κ → ℕ → ℕ) : BloomFilter → Prop
  | create (numKeys numHashes : ℕ) (p : ℝ) (hn : 1 ≤ numKeys) (hk : 1 ≤ numHashes)
      (hp0 : 0 < p) (hp1 : p < 1) :
      BloomFilter.Reachable hash (BloomFilter.create numKeys numHashes p)
  | step (f : BloomFilter) (key : κ) (h : BloomFilter.Reachable hash f) :
      BloomFilter.Reachable hash (f.insert hash key)

/-- Operations a caller can perform on an existing filter. -/
inductive Op (κ : Type) where
  | insert (key : κ) : Op κ
  | find (key : κ) : Op κ
  deriving DecidableEq

/-- Run a sequence of operations on a filter state.  `find` queries do
not change the state; `insert` updates it. -/
def runOps {κ : Type} (hash : κ → ℕ → ℕ) : BloomFilter → List (Op κ) → BloomFilter
  | f, [] => f
  | f, Op.insert key :: rest => runOps hash (f.insert hash key) rest
  | f, Op.find _ :: rest => runOps hash f rest

/-- Fold `insert` over a list of keys. -/
def insertList {κ : Type} (hash : κ → ℕ → ℕ) (f : BloomFilter) (keys : List κ) :
    BloomFilter :=
  keys.foldl (fun g key => g.insert hash key) f

/-- Well-formedness of a filter state: positive size and a bit vector of
exactly `size` entries. -/
def BloomFilter.WF (f : BloomFilter) : Prop :=
  0 < f.size ∧ f.bitVec.length = f.size

/-- Constant-zero hash oracle on natural-number keys, used for concrete
instantiations. -/
def zeroHash : ℕ → ℕ → ℕ := fun _ _ => 0

/-! ### List-level helper lemmas -/

theorem getD_true_lt (l : List Bool) (i : ℕ) (h : l.getD i false = true) :
    i < l.length := by
  induction l generalizing i with
  | nil => simp [List.getD] at h
  | cons b t ih =>
      cases i with
      | zero => simp
      | succ j =>
          simp only [List.getD_cons_succ] at h
          simpa using ih j h

theorem getD_set_self (l : List Bool) (i : ℕ) (h : i < l.length) :
    (l.set i true).getD i false = true := by
  induction l generalizing i with
  | nil => simp at h
  | cons b t ih =>
      cases i with
      | zero => simp
      | succ j => simpa using ih j (by simpa using h)

theorem getD_set_mono (l : List Bool) (i j : ℕ) (h : l.getD j false = true) :
    (l.set i true).getD j false = true := by
  induction l generalizing i j with
  | nil => simp [List.getD] at h
  | cons b t ih =>
      cases i with
      | zero =>
          cases j with
          | zero => simp
          | succ j0 => simpa using h
      | succ i0 =>
          cases j with
          | zero => simpa using h
          | succ j0 =>
              simp only [List.set_cons_succ, List.getD_cons_succ] at h ⊢
              exact ih i0 j0 h

theorem count_true_set (l : List Bool) (j : ℕ) (hf : l.getD j false = false)
    (hj : j < l.length) :
    (l.set j true).count true = l.count true + 1 := by
  induction l generalizing j with
  | nil => simp at hj
  | cons b t ih =>
      cases j with
      | zero =>
          simp only [List.getD_cons_zero] at hf
          subst hf
          simp [List.count_cons]
      | succ j0 =>
          simp only [List.getD_cons_succ] at hf
          simp only [List.set_cons_succ, List.count_cons,
            ih j0 hf (by simpa using hj)]
          omega

/-! ### Probe-sequence and loop lemmas -/

theorem probeSeq_lt {κ : Type} (hash : κ → ℕ → ℕ) (size : ℕ) (key : κ)
    (hsz : 0 < size) :
    ∀ (n seed : ℕ), ∀ i ∈ probeSeq hash size key n seed, i < size := by
  intro n
  induction n with
  | zero => intro seed i hi; simp [probeSeq] at hi
  | succ n ih =>
      intro seed i hi
      simp only [probeSeq, List.mem_cons] at hi
      rcases hi with h | h
      · subst h; exact Nat.mod_lt _ hsz
      · exact ih _ i h

theorem insertLoop_length {κ : Type} (hash : κ → ℕ → ℕ) (size : ℕ) (key : κ)
    (n : ℕ) : ∀ (seed : ℕ) (bits : List Bool) (cnt : ℕ),
    (insertLoop hash size key n seed bits cnt).1.length = bits.length := by
  induction n with
  | zero => intro seed bits cnt; rfl
  | succ n ih =>
      intro seed bits cnt
      simp only [insertLoop]
      split
      · rw [ih]; exact List.length_set ..
      · exact ih ..

theorem insertLoop_getD_mono {κ : Type} (hash : κ → ℕ → ℕ) (size : ℕ) (key : κ)
    (n : ℕ) : ∀ (seed : ℕ) (bits : List Bool) (cnt i : ℕ),
    bits.getD i false = true →
    (insertLoop hash size key n seed bits cnt).1.getD i false = true := by
  induction n with
  | zero => intro seed bits cnt i h; exact h
  | succ n ih =>
      intro seed bits cnt i h
      simp only [insertLoop]
      split
      · exact ih _ _ _ _ (getD_set_mono _ _ _ h)
      · exact ih _ _ _ _ h

theorem insertLoop_sets {κ : Type} (hash : κ → ℕ → ℕ) (size : ℕ) (key : κ)
    (hsz : 0 < size) (n : ℕ) :
    ∀ (seed : ℕ) (bits : List Bool) (cnt : ℕ), bits.length = size →
    ∀ i ∈ probeSeq hash size key n seed,
      (insertLoop hash size key n seed bits cnt).1.getD i false = true := by
  induction n with
  | zero => intro seed bits cnt hlen i hi; simp [probeSeq] at hi
  | succ n ih =>
      intro seed bits cnt hlen i hi
      simp only [probeSeq, List.mem_cons] at hi
      have hval : hash key seed % size < bits.length := by
        rw [hlen]; exact Nat.mod_lt _ hsz
      rcases hi with h | h
      · subst h
        simp only [insertLoop]
        split
        · exact insertLoop_getD_mono hash size key n _ _ _ _
            (getD_set_self _ _ hval)
        · rename_i hb
          have : bits.getD (hash key seed % size) false = true := by
            revert hb; cases bits.getD (hash key seed % size) false <;> simp
          exact insertLoop_getD_mono hash size key n _ _ _ _ this
      · simp only [insertLoop]
        split
        · exact ih _ _ _ (by rw [List.length_set]; exact hlen) i h
        · exact ih _ _ _ hlen i h

theorem insertLoop_count {κ : Type} (hash : κ → ℕ → ℕ) (size : ℕ) (key : κ)
    (hsz : 0 < size) (n : ℕ) :
    ∀ (seed : ℕ) (bits : List Bool) (cnt : ℕ), bits.length = size →
    cnt = bits.count true →
    (insertLoop hash size key n seed bits cnt).2.1 =
      (insertLoop hash size key n seed bits cnt).1.count true := by
  induction n with
  | zero => intro seed bits cnt hlen hcnt; exact hcnt
  | succ n ih =>
      intro seed bits cnt hlen hcnt
      have hval : hash key seed % size < bits.length := by
        rw [hlen]; exact Nat.mod_lt _ hsz
      simp only [insertLoop]
      split
      · rename_i hb
        exact ih _ _ _ (by rw [List.length_set]; exact hlen)
          (by rw [count_true_set _ _ hb hval, hcnt])
      · exact ih _ _ _ hlen hcnt

theorem insertLoop_cnt_le {κ : Type} (hash : κ → ℕ → ℕ) (size : ℕ) (key : κ)
    (n : ℕ) : ∀ (seed : ℕ) (bits : List Bool) (cnt : ℕ),
    cnt ≤ (insertLoop hash size key n seed bits cnt).2.1 := by
  induction n with
  | zero => intro seed bits cnt; exact le_rfl
  | succ n ih =>
      intro seed bits cnt
      simp only [insertLoop]
      split
      · exact le_trans (Nat.le_succ cnt) (ih ..)
      · exact ih ..

theorem insertLoop_calls {κ : Type} (hash : κ → ℕ → ℕ) (size : ℕ) (key : κ)
    (n : ℕ) : ∀ (seed : ℕ) (bits : List Bool) (cnt : ℕ),
    (insertLoop hash size key n seed bits cnt).2.2 = n := by
  induction n with
  | zero => intro seed bits cnt; rfl
  | succ n ih =>
      intro seed bits cnt
      simp only [insertLoop]
      split
      · rw [ih]
      · rw [ih]

theorem insertLoop_noop {κ : Type} (hash : κ → ℕ → ℕ) (size : ℕ) (key : κ)
    (n : ℕ) : ∀ (seed : ℕ) (bits : List Bool) (cnt : ℕ),
    (∀ i ∈ probeSeq hash size key n seed, bits.getD i false = true) →
    insertLoop hash size key n seed bits cnt = (bits, cnt, n) := by
  induction n with
  | zero => intro seed bits cnt _; rfl
  | succ n ih =>
      intro seed bits cnt hall
      have hhead : bits.getD (hash key seed % size) false = true :=
        hall _ (by simp [probeSeq])
      simp only [insertLoop]
      split
      · rename_i hb; rw [hhead] at hb; exact absurd hb (by simp)
      · rw [ih _ _ _ (fun i hi => hall i (by simp [probeSeq, List.mem_cons]; right; exact hi))]

theorem findLoop_eq_all {κ : Type} (hash : κ → ℕ → ℕ) (size : ℕ)
    (bits : List Bool) (key : κ) (n : ℕ) : ∀ (seed : ℕ),
    (findLoop hash size bits key n seed).1 =
      (probeSeq hash size key n seed).all (fun i => bits.getD i false) := by
  induction n with
  | zero => intro seed; simp [findLoop, probeSeq]
  | succ n ih =>
      intro seed
      simp only [findLoop, probeSeq, List.all_cons]
      split
      · rename_i hb; rw [hb]; rfl
      · rename_i hb
        have : bits.getD (hash key seed % size) false = true := by
          revert hb; cases bits.getD (hash key seed % size) false <;> simp
        rw [this, ih]
        simp

theorem findLoop_calls_le {κ : Type} (hash : κ → ℕ → ℕ) (size : ℕ)
    (bits : List Bool) (key : κ) (n : ℕ) : ∀ (seed : ℕ),
    (findLoop hash size bits key n seed).2 ≤ n := by
  induction n with
  | zero => intro seed; exact le_rfl
  | succ n ih =>
      intro seed
      simp only [findLoop]
      split
      · omega
      · have := ih (hash key seed); omega

theorem findLoop_true_calls {κ : Type} (hash : κ → ℕ → ℕ) (size : ℕ)
    (bits : List Bool) (key : κ) (n : ℕ) : ∀ (seed : ℕ),
    (findLoop hash size bits key n seed).1 = true →
    (findLoop hash size bits key n seed).2 = n := by
  induction n with
  | zero => intro seed _; rfl
  | succ n ih =>
      intro seed h
      simp only [findLoop] at h ⊢
      split
      · rename_i hb; rw [if_pos hb] at h; simp at h
      · rename_i hb; rw [if_neg hb] at h; rw [ih _ h]

/-! ### Real-arithmetic lemmas about the sizing formula -/

theorem bitsNeededR_denom_bounds (numKeys numHashes : ℕ) (p : ℝ)
    (hn : 1 ≤ numKeys) (hk : 1 ≤ numHashes) (hp0 : 0 < p) (hp1 : p < 1) :
    0 < 1 - (1 - p ^ ((1 : ℝ) / (numHashes : ℝ))) ^ ((1 : ℝ) / (numKeys : ℝ)) ∧
      1 - (1 - p ^ ((1 : ℝ) / (numHashes : ℝ))) ^ ((1 : ℝ) / (numKeys : ℝ)) < 1 := by
  have hkR : (0 : ℝ) < (numHashes : ℝ) := by exact_mod_cast hk
  have hnR : (0 : ℝ) < (numKeys : ℝ) := by exact_mod_cast hn
  have hek : 0 < (1 : ℝ) / (numHashes : ℝ) := by positivity
  have hen : 0 < (1 : ℝ) / (numKeys : ℝ) := by positivity
  have ha0 : 0 < p ^ ((1 : ℝ) / (numHashes : ℝ)) := Real.rpow_pos_of_pos hp0 _
  have ha1 : p ^ ((1 : ℝ) / (numHashes : ℝ)) < 1 := Real.rpow_lt_one hp0.le hp1 hek
  have hb0 : 0 < (1 - p ^ ((1 : ℝ) / (numHashes : ℝ))) ^ ((1 : ℝ) / (numKeys : ℝ)) :=
    Real.rpow_pos_of_pos (by linarith) _
  have hb1 : (1 - p ^ ((1 : ℝ) / (numHashes : ℝ))) ^ ((1 : ℝ) / (numKeys : ℝ)) < 1 :=
    Real.rpow_lt_one (by linarith) (by linarith) hen
  exact ⟨by linarith, by linarith⟩

theorem le_bitsNeededR (numKeys numHashes : ℕ) (p : ℝ)
    (hn : 1 ≤ numKeys) (hk : 1 ≤ numHashes) (hp0 : 0 < p) (hp1 : p < 1) :
    (numHashes : ℝ) ≤ bitsNeededR numKeys numHashes p := by
  obtain ⟨hd0, hd1⟩ := bitsNeededR_denom_bounds numKeys numHashes p hn hk hp0 hp1
  have hkR : (0 : ℝ) < (numHashes : ℝ) := by exact_mod_cast hk
  simp only [bitsNeededR]
  rw [le_div_iff₀ hd0]
  exact mul_le_of_le_one_right hkR.le hd1.le

theorem bitsNeededR_nonneg (numKeys numHashes : ℕ) (p : ℝ)
    (hn : 1 ≤ numKeys) (hk : 1 ≤ numHashes) (hp0 : 0 < p) (hp1 : p < 1) :
    0 ≤ bitsNeededR numKeys numHashes p := by
  have hkR : (0 : ℝ) ≤ (numHashes : ℝ) := by positivity
  exact le_trans hkR (le_bitsNeededR numKeys numHashes p hn hk hp0 hp1)

theorem bitsNeeded_eq_floor (numKeys numHashes : ℕ) (p : ℝ)
    (hn : 1 ≤ numKeys) (hk : 1 ≤ numHashes) (hp0 : 0 < p) (hp1 : p < 1) :
    bitsNeeded numKeys numHashes p = ⌊bitsNeededR numKeys numHashes p⌋ := by
  unfold bitsNeeded pyInt
  rw [if_pos (bitsNeededR_nonneg numKeys numHashes p hn hk hp0 hp1)]

theorem one_le_bitsNeeded (numKeys numHashes : ℕ) (p : ℝ)
    (hn : 1 ≤ numKeys) (hk : 1 ≤ numHashes) (hp0 : 0 < p) (hp1 : p < 1) :
    1 ≤ bitsNeeded numKeys numHashes p := by
  have h1 : (1 : ℝ) ≤ bitsNeededR numKeys numHashes p := by
    refine le_trans ?_ (le_bitsNeededR numKeys numHashes p hn hk hp0 hp1)
    exact_mod_cast hk
  rw [bitsNeeded_eq_floor numKeys numHashes p hn hk hp0 hp1]
  exact Int.le_floor.mpr (by exact_mod_cast h1)

theorem bitsNeededR_mono_keys (k n1 n2 : ℕ) (p : ℝ) (hk : 1 ≤ k)
    (hn1 : 1 ≤ n1) (hn12 : n1 ≤ n2) (hp0 : 0 < p) (hp1 : p < 1) :
    bitsNeededR n1 k p ≤ bitsNeededR n2 k p := by
  have hn2 : 1 ≤ n2 := le_trans hn1 hn12
  obtain ⟨hd10, _⟩ := bitsNeededR_denom_bounds n1 k p hn1 hk hp0 hp1
  obtain ⟨hd20, _⟩ := bitsNeededR_denom_bounds n2 k p hn2 hk hp0 hp1
  have hkR : (0 : ℝ) < (k : ℝ) := by exact_mod_cast hk
  have hn1R : (0 : ℝ) < (n1 : ℝ) := by exact_mod_cast hn1
  have hek : 0 < (1 : ℝ) / (k : ℝ) := by positivity
  have ha1 : p ^ ((1 : ℝ) / (k : ℝ)) < 1 := Real.rpow_lt_one hp0.le hp1 hek
  have ha0 : 0 < p ^ ((1 : ℝ) / (k : ℝ)) := Real.rpow_pos_of_pos hp0 _
  have hexp : (1 : ℝ) / (n2 : ℝ) ≤ (1 : ℝ) / (n1 : ℝ) := by
    apply one_div_le_one_div_of_le hn1R
    exact_mod_cast hn12
  have hb : (1 - p ^ ((1 : ℝ) / (k : ℝ))) ^ ((1 : ℝ) / (n1 : ℝ)) ≤
      (1 - p ^ ((1 : ℝ) / (k : ℝ))) ^ ((1 : ℝ) / (n2 : ℝ)) :=
    Real.rpow_le_rpow_of_exponent_ge (by linarith) (by linarith) hexp
  simp only [bitsNeededR]
  rw [div_le_div_iff_of_pos_left hkR hd10 hd20]
  linarith

theorem bitsNeededR_mono_p (n k : ℕ) (p1 p2 : ℝ) (hn : 1 ≤ n) (hk : 1 ≤ k)
    (hp20 : 0 < p2) (hp21 : p2 ≤ p1) (hp11 : p1 < 1) :
    bitsNeededR n k p1 ≤ bitsNeededR n k p2 := by
  have hp10 : 0 < p1 := lt_of_lt_of_le hp20 hp21
  have hp2lt1 : p2 < 1 := lt_of_le_of_lt hp21 hp11
  obtain ⟨hd10, _⟩ := bitsNeededR_denom_bounds n k p1 hn hk hp10 hp11
  obtain ⟨hd20, _⟩ := bitsNeededR_denom_bounds n k p2 hn hk hp20 hp2lt1
  have hkR : (0 : ℝ) < (k : ℝ) := by exact_mod_cast hk
  have hnR : (0 : ℝ) < (n : ℝ) := by exact_mod_cast hn
  have hek : 0 < (1 : ℝ) / (k : ℝ) := by positivity
  have hen : 0 ≤ (1 : ℝ) / (n : ℝ) := by positivity
  have ha : p2 ^ ((1 : ℝ) / (k : ℝ)) ≤ p1 ^ ((1 : ℝ) / (k : ℝ)) :=
    Real.rpow_le_rpow hp20.le hp21 hek.le
  have ha11 : p1 ^ ((1 : ℝ) / (k : ℝ)) < 1 := Real.rpow_lt_one hp10.le hp11 hek
  have hb : (1 - p1 ^ ((1 : ℝ) / (k : ℝ))) ^ ((1 : ℝ) / (n : ℝ)) ≤
      (1 - p2 ^ ((1 : ℝ) / (k : ℝ))) ^ ((1 : ℝ) / (n : ℝ)) :=
    Real.rpow_le_rpow (by linarith) (by linarith) hen
  simp only [bitsNeededR]
  rw [div_le_div_iff_of_pos_left hkR hd10 hd20]
  linarith

/-! ### Concrete evaluations of the construction -/

theorem bitsNeeded_eval_one : bitsNeeded 1 1 ((1 : ℝ) / 2) = 2 := by
  have hR : bitsNeededR 1 1 ((1 : ℝ) / 2) = 2 := by
    simp only [bitsNeededR, Nat.cast_one, div_one, Real.rpow_one]
    norm_num
  unfold bitsNeeded pyInt
  rw [hR]
  norm_num

theorem create_eval_one :
    BloomFilter.create 1 1 ((1 : ℝ) / 2) = ⟨2, 1, [false, false], 0⟩ := by
  simp only [BloomFilter.create, bitsNeeded_eval_one]
  rfl

theorem bitsNeeded_eval_two : bitsNeeded 1 2 ((1 : ℝ) / 4) = 4 := by
  have ha : ((1 : ℝ) / 4) ^ ((1 : ℝ) / ((2 : ℕ) : ℝ)) = 1 / 2 := by
    have h2 : ((1 : ℝ) / 4) = ((1 : ℝ) / 2) ^ (2 : ℕ) := by norm_num
    rw [h2, one_div ((2 : ℕ) : ℝ)]
    exact Real.pow_rpow_inv_natCast (by norm_num) (by norm_num)
  have hR : bitsNeededR 1 2 ((1 : ℝ) / 4) = 4 := by
    simp only [bitsNeededR, Nat.cast_one, Nat.cast_ofNat, div_one, Real.rpow_one]
    rw [show (1 : ℝ) / ((2 : ℝ)) = (1 : ℝ) / (((2 : ℕ)) : ℝ) by norm_num] at *
    rw [ha]
    norm_num
  unfold bitsNeeded pyInt
  rw [hR]
  norm_num

theorem create_eval_two :
    BloomFilter.create 1 2 ((1 : ℝ) / 4) =
      ⟨4, 2, [false, false, false, false], 0⟩ := by
  simp only [BloomFilter.create, bitsNeeded_eval_two]
  rfl

/-! ### State-level lemmas -/

theorem insert_size {κ : Type} (hash : κ → ℕ → ℕ) (f : BloomFilter) (key : κ) :
    (f.insert hash key).size = f.size := rfl

theorem insert_numHashes {κ : Type} (hash : κ → ℕ → ℕ) (f : BloomFilter) (key : κ) :
    (f.insert hash key).numHashes = f.numHashes := rfl

theorem insert_bitVec_length {κ : Type} (hash : κ → ℕ → ℕ) (f : BloomFilter) (key : κ) :
    (f.insert hash key).bitVec.length = f.bitVec.length :=
  insertLoop_length hash f.size key f.numHashes 0 f.bitVec f.numBitsSet

theorem insert_getD_mono {κ : Type} (hash : κ → ℕ → ℕ) (f : BloomFilter) (key : κ)
    (i : ℕ) (h : f.bitVec.getD i false = true) :
    (f.insert hash key).bitVec.getD i false = true :=
  insertLoop_getD_mono hash f.size key f.numHashes 0 f.bitVec f.numBitsSet i h

theorem insertList_size {κ : Type} (hash : κ → ℕ → ℕ) (keys : List κ) :
    ∀ f : BloomFilter, (insertList hash f keys).size = f.size := by
  induction keys with
  | nil => intro f; rfl
  | cons k rest ih =>
      intro f
      show (insertList hash (f.insert hash k) rest).size = f.size
      rw [ih (f.insert hash k), insert_size]

theorem insertList_getD_mono {κ : Type} (hash : κ → ℕ → ℕ) (keys : List κ) :
    ∀ (f : BloomFilter) (i : ℕ), f.bitVec.getD i false = true →
    (insertList hash f keys).bitVec.getD i false = true := by
  induction keys with
  | nil => intro f i h; exact h
  | cons k rest ih =>
      intro f i h
      exact ih (f.insert hash k) i (insert_getD_mono hash f k i h)

/-- Internal invariant of every reachable filter state. -/
def BloomFilter.Inv (f : BloomFilter) : Prop :=
  0 < f.size ∧ f.bitVec.length = f.size ∧ 1 ≤ f.numHashes ∧
    f.numBitsSet = f.bitVec.count true

theorem insert_Inv {κ : Type} (hash : κ → ℕ → ℕ) (f : BloomFilter) (key : κ)
    (h : f.Inv) : (f.insert hash key).Inv := by
  obtain ⟨hsz, hlen, hk, hcnt⟩ := h
  refine ⟨hsz, ?_, hk, ?_⟩
  · rw [insert_bitVec_length, hlen]; rfl
  · exact insertLoop_count hash f.size key hsz f.numHashes 0 f.bitVec
      f.numBitsSet hlen hcnt

theorem reachable_inv {κ : Type} (hash : κ → ℕ → ℕ) (f : BloomFilter)
    (hf : f.Reachable hash) : f.Inv := by
  induction hf with
  | create numKeys numHashes p hn hk hp0 hp1 =>
      have h1 : 1 ≤ bitsNeeded numKeys numHashes p :=
        one_le_bitsNeeded numKeys numHashes p hn hk hp0 hp1
      refine ⟨?_, ?_, hk, ?_⟩
      · simp only [BloomFilter.create]; omega
      · simp [BloomFilter.create]
      · simp [BloomFilter.create, List.count_replicate]
  | step f key hf ih => exact insert_Inv hash f key ih

theorem reachable_WF {κ : Type} (hash : κ → ℕ → ℕ) (f : BloomFilter)
    (hf : f.Reachable hash) : f.WF := by
  obtain ⟨h1, h2, _, _⟩ := reachable_inv hash f hf
  exact ⟨h1, h2⟩

/-! ### Additional state lemmas used by the claims -/

theorem insertList_numHashes {κ : Type} (hash : κ → ℕ → ℕ) (keys : List κ) :
    ∀ f : BloomFilter, (insertList hash f keys).numHashes = f.numHashes := by
  induction keys with
  | nil => intro f; rfl
  | cons k rest ih =>
      intro f
      show (insertList hash (f.insert hash k) rest).numHashes = f.numHashes
      rw [ih (f.insert hash k), insert_numHashes]

theorem insert_sets_probes {κ : Type} (hash : κ → ℕ → ℕ) (f : BloomFilter)
    (key : κ) (hwf : f.WF) :
    ∀ i ∈ probeSeq hash f.size key f.numHashes 0,
      (f.insert hash key).bitVec.getD i false = true :=
  fun i hi => insertLoop_sets hash f.size key hwf.1 f.numHashes 0 f.bitVec
    f.numBitsSet hwf.2 i hi

theorem insert_noop {κ : Type} (hash : κ → ℕ → ℕ) (g : BloomFilter) (key : κ)
    (hall : ∀ i ∈ probeSeq hash g.size key g.numHashes 0,
      g.bitVec.getD i false = true) :
    g.insert hash key = g := by
  unfold BloomFilter.insert
  rw [insertLoop_noop hash g.size key g.numHashes 0 g.bitVec g.numBitsSet hall]

/-! ### The claims -/

/-- C1.  No false negatives: for every key `K` passed to `insert`,
`find(K)` returns true immediately after that insert and after any number
of subsequent inserts of arbitrary other keys (the hash oracle, being a
function, is deterministic for a given (key, seed) pair). -/
theorem noFalseNegatives {κ : Type} (hash : κ → ℕ → ℕ) (f : BloomFilter)
    (hf : f.Reachable hash) (K : κ) (ks : List κ) :
    (insertList hash (f.insert hash K) ks).find hash K = true := by
  have hwf := reachable_WF hash f hf
  have hset2 : ∀ i ∈ probeSeq hash f.size K f.numHashes 0,
      (insertList hash (f.insert hash K) ks).bitVec.getD i false = true :=
    fun i hi => insertList_getD_mono hash ks _ i (insert_sets_probes hash f K hwf i hi)
  have hsz2 : (insertList hash (f.insert hash K) ks).size = f.size := by
    rw [insertList_size, insert_size]
  have hnh : (insertList hash (f.insert hash K) ks).numHashes = f.numHashes := by
    rw [insertList_numHashes, insert_numHashes]
  unfold BloomFilter.find
  rw [findLoop_eq_all, hsz2, hnh]
  exact List.all_eq_true.mpr hset2

/-- Witness for C1, on a concrete filter, key and subsequent inserts. -/
theorem noFalseNegatives_witness :
    (insertList zeroHash
      ((BloomFilter.create 1 1 ((1 : ℝ) / 2)).insert zeroHash 3)
      [4, 5]).find zeroHash 3 = true :=
  noFalseNegatives zeroHash _
    (BloomFilter.Reachable.create 1 1 ((1 : ℝ) / 2) le_rfl le_rfl
      (by norm_num) (by norm_num)) 3 [4, 5]

/-- C2.  Counter invariant: in every reachable filter state,
`setBitCount` equals the exact number of true entries of the bit vector,
and it still does after any further `insert` (the counter is bumped
exactly on false-to-true transitions of probed bits). -/
theorem setBitCountInvariant {κ : Type} (hash : κ → ℕ → ℕ) (f : BloomFilter)
    (hf : f.Reachable hash) :
    f.numBitsSet = f.bitVec.count true ∧
      ∀ key : κ, (f.insert hash key).numBitsSet =
        (f.insert hash key).bitVec.count true :=
  ⟨(reachable_inv hash f hf).2.2.2,
   fun key => (reachable_inv hash _ (BloomFilter.Reachable.step f key hf)).2.2.2⟩

/-- Witness for C2 on a concrete reachable state and insert. -/
theorem setBitCountInvariant_witness :
    (BloomFilter.create 1 1 ((1 : ℝ) / 2)).numBitsSet =
      (BloomFilter.create 1 1 ((1 : ℝ) / 2)).bitVec.count true ∧
    ((BloomFilter.create 1 1 ((1 : ℝ) / 2)).insert zeroHash 7).numBitsSet =
      ((BloomFilter.create 1 1 ((1 : ℝ) / 2)).insert zeroHash 7).bitVec.count true := by
  have h := setBitCountInvariant zeroHash _
    (BloomFilter.Reachable.create 1 1 ((1 : ℝ) / 2) le_rfl le_rfl
      (by norm_num) (by norm_num))
  exact ⟨h.1, h.2 7⟩

/-- C3.  Construction: for `numKeys ≥ 1`, `numHashes ≥ 1` and
`0 < p < 1`, the created filter has
`size = ⌊numHashes / (1 - (1 - p^(1/numHashes))^(1/numKeys))⌋ ≥ 1`,
`hashCount = numHashes`, `setBitCount = 0`, and a bit vector of exactly
`size` entries, all false. -/
theorem createSpec (numKeys numHashes : ℕ) (p : ℝ) (hn : 1 ≤ numKeys)
    (hk : 1 ≤ numHashes) (hp0 : 0 < p) (hp1 : p < 1) :
    ((BloomFilter.create numKeys numHashes p).size : ℤ) =
      ⌊(numHashes : ℝ) /
        (1 - (1 - p ^ ((1 : ℝ) / (numHashes : ℝ))) ^ ((1 : ℝ) / (numKeys : ℝ)))⌋ ∧
    1 ≤ (BloomFilter.create numKeys numHashes p).size ∧
    (BloomFilter.create numKeys numHashes p).numHashes = numHashes ∧
    (BloomFilter.create numKeys numHashes p).numBitsSet = 0 ∧
    (BloomFilter.create numKeys numHashes p).bitVec.length =
      (BloomFilter.create numKeys numHashes p).size ∧
    ∀ b ∈ (BloomFilter.create numKeys numHashes p).bitVec, b = false := by
  have h1 := one_le_bitsNeeded numKeys numHashes p hn hk hp0 hp1
  have hfl := bitsNeeded_eq_floor numKeys numHashes p hn hk hp0 hp1
  refine ⟨?_, ?_, rfl, rfl, by simp [BloomFilter.create], ?_⟩
  · show ((bitsNeeded numKeys numHashes p).toNat : ℤ) = _
    rw [Int.toNat_of_nonneg (by omega), hfl]
    rfl
  · show 1 ≤ (bitsNeeded numKeys numHashes p).toNat
    omega
  · intro b hb
    simp only [BloomFilter.create] at hb
    exact List.eq_of_mem_replicate hb

/-- Witness for C3 at `numKeys = 1`, `numHashes = 1`, `p = 1/2`. -/
theorem createSpec_witness :
    ((BloomFilter.create 1 1 ((1 : ℝ) / 2)).size : ℤ) =
      ⌊((1 : ℕ) : ℝ) /
        (1 - (1 - ((1 : ℝ) / 2) ^ ((1 : ℝ) / ((1 : ℕ) : ℝ))) ^
          ((1 : ℝ) / ((1 : ℕ) : ℝ)))⌋ ∧
    1 ≤ (BloomFilter.create 1 1 ((1 : ℝ) / 2)).size :=
  ⟨(createSpec 1 1 ((1 : ℝ) / 2) le_rfl le_rfl (by norm_num) (by norm_num)).1,
   (createSpec 1 1 ((1 : ℝ) / 2) le_rfl le_rfl (by norm_num) (by norm_num)).2.1⟩

/-- C4.  Projected rate: `falsePositiveRate()` returns exactly
`(1 - z) ^ hashCount` with `z = (bitCount - setBitCount) / bitCount`; in
every reachable state the value lies in `[0, 1]`, and it equals 0 when
`setBitCount = 0`. -/
theorem falsePositiveRateSpec {κ : Type} (hash : κ → ℕ → ℕ) (f : BloomFilter)
    (hf : f.Reachable hash) :
    f.falsePositiveRate =
      (1 - ((f.size : ℚ) - (f.numBitsSet : ℚ)) / (f.size : ℚ)) ^ f.numHashes ∧
    0 ≤ f.falsePositiveRate ∧ f.falsePositiveRate ≤ 1 ∧
    (f.numBitsSet = 0 → f.falsePositiveRate = 0) := by
  obtain ⟨hsz, hlen, hk, hcnt⟩ := reachable_inv hash f hf
  have hszQ : (0 : ℚ) < (f.size : ℚ) := by exact_mod_cast hsz
  have hle : f.numBitsSet ≤ f.size := by
    rw [hcnt, ← hlen]
    exact List.count_le_length true _
  have hbase : 1 - ((f.size : ℚ) - (f.numBitsSet : ℚ)) / (f.size : ℚ) =
      (f.numBitsSet : ℚ) / (f.size : ℚ) := by
    field_simp
  have hrate : f.falsePositiveRate =
      ((f.numBitsSet : ℚ) / (f.size : ℚ)) ^ f.numHashes := by
    show (1 - ((f.size : ℚ) - (f.numBitsSet : ℚ)) / (f.size : ℚ)) ^ f.numHashes = _
    rw [hbase]
  refine ⟨rfl, ?_, ?_, ?_⟩
  · rw [hrate]; positivity
  · rw [hrate]
    refine pow_le_one₀ (by positivity) ?_
    rw [div_le_one hszQ]
    exact_mod_cast hle
  · intro h0
    rw [hrate, h0]
    simp only [Nat.cast_zero, zero_div]
    exact zero_pow (by omega)

/-- Witness for C4 on a concrete reachable state. -/
theorem falsePositiveRateSpec_witness :
    0 ≤ (BloomFilter.create 1 1 ((1 : ℝ) / 2)).falsePositiveRate ∧
    (BloomFilter.create 1 1 ((1 : ℝ) / 2)).falsePositiveRate ≤ 1 ∧
    ((BloomFilter.create 1 1 ((1 : ℝ) / 2)).numBitsSet = 0 →
      (BloomFilter.create 1 1 ((1 : ℝ) / 2)).falsePositiveRate = 0) := by
  have h := falsePositiveRateSpec zeroHash _
    (BloomFilter.Reachable.create 1 1 ((1 : ℝ) / 2) le_rfl le_rfl
      (by norm_num) (by norm_num))
  exact ⟨h.2.1, h.2.2.1, h.2.2.2⟩

/-- C5.  Monotonic fill: an `insert` never decreases `numBitsSet`, the
count never exceeds `bitCount` (before or after), and every individual
bit only transitions false-to-true, never true-to-false. -/
theorem monotonicFill {κ : Type} (hash : κ → ℕ → ℕ) (f : BloomFilter)
    (hf : f.Reachable hash) (key : κ) :
    f.numBitsSet ≤ (f.insert hash key).numBitsSet ∧
    f.numBitsSet ≤ f.size ∧
    (f.insert hash key).numBitsSet ≤ (f.insert hash key).size ∧
    ∀ i, f.bitVec.getD i false = true →
      (f.insert hash key).bitVec.getD i false = true := by
  obtain ⟨hsz, hlen, hk, hcnt⟩ := reachable_inv hash f hf
  obtain ⟨hsz2, hlen2, hk2, hcnt2⟩ :=
    reachable_inv hash _ (BloomFilter.Reachable.step f key hf)
  refine ⟨?_, ?_, ?_, fun i h => insert_getD_mono hash f key i h⟩
  · exact insertLoop_cnt_le hash f.size key f.numHashes 0 f.bitVec f.numBitsSet
  · rw [hcnt, ← hlen]
    exact List.count_le_length true _
  · rw [hcnt2, ← hlen2]
    exact List.count_le_length true _

/-- Witness for C5 on a concrete reachable state and insert. -/
theorem monotonicFill_witness :
    (BloomFilter.create 1 1 ((1 : ℝ) / 2)).numBitsSet ≤
      ((BloomFilter.create 1 1 ((1 : ℝ) / 2)).insert zeroHash 6).numBitsSet ∧
    ((BloomFilter.create 1 1 ((1 : ℝ) / 2)).insert zeroHash 6).numBitsSet ≤
      ((BloomFilter.create 1 1 ((1 : ℝ) / 2)).insert zeroHash 6).size := by
  have h := monotonicFill zeroHash _
    (BloomFilter.Reachable.create 1 1 ((1 : ℝ) / 2) le_rfl le_rfl
      (by norm_num) (by norm_num)) 6
  exact ⟨h.1, h.2.2.1⟩

/-- C6.  Sizing monotonicity: with `numHashes` and `p` fixed, a larger
`numKeys` never yields a smaller computed bit count; with `numKeys` and
`numHashes` fixed, a smaller (stricter) `p` never yields a smaller
computed bit count. -/
theorem sizingMonotonicity :
    (∀ (k n1 n2 : ℕ) (p : ℝ), 1 ≤ k → 1 ≤ n1 → n1 ≤ n2 → 0 < p → p < 1 →
      bitsNeeded n1 k p ≤ bitsNeeded n2 k p) ∧
    (∀ (n k : ℕ) (p1 p2 : ℝ), 1 ≤ n → 1 ≤ k → 0 < p2 → p2 ≤ p1 → p1 < 1 →
      bitsNeeded n k p1 ≤ bitsNeeded n k p2) := by
  constructor
  · intro k n1 n2 p hk hn1 hn12 hp0 hp1
    rw [bitsNeeded_eq_floor n1 k p hn1 hk hp0 hp1,
      bitsNeeded_eq_floor n2 k p (le_trans hn1 hn12) hk hp0 hp1]
    exact Int.floor_le_floor (bitsNeededR_mono_keys k n1 n2 p hk hn1 hn12 hp0 hp1)
  · intro n k p1 p2 hn hk hp20 hp21 hp11
    rw [bitsNeeded_eq_floor n k p1 hn hk (lt_of_lt_of_le hp20 hp21) hp11,
      bitsNeeded_eq_floor n k p2 hn hk hp20 (lt_of_le_of_lt hp21 hp11)]
    exact Int.floor_le_floor (bitsNeededR_mono_p n k p1 p2 hn hk hp20 hp21 hp11)

/-- Witness for C6 at concrete parameters. -/
theorem sizingMonotonicity_witness :
    bitsNeeded 1 1 ((1 : ℝ) / 2) ≤ bitsNeeded 2 1 ((1 : ℝ) / 2) ∧
    bitsNeeded 1 1 ((1 : ℝ) / 2) ≤ bitsNeeded 1 1 ((1 : ℝ) / 4) :=
  ⟨sizingMonotonicity.1 1 1 2 ((1 : ℝ) / 2) le_rfl le_rfl (by norm_num)
    (by norm_num) (by norm_num),
   sizingMonotonicity.2 1 1 ((1 : ℝ) / 2) ((1 : ℝ) / 4) le_rfl le_rfl
    (by norm_num) (by norm_num) (by norm_num)⟩

/-- C7 (amended).  Hash-oracle call count: `insert(key)` invokes the
oracle exactly `hashCount` times; `find(key)` invokes it at most
`hashCount` times, and exactly `hashCount` times whenever it returns
true; the early return does not change the boolean result of `find`, which
always equals the conjunction over all `hashCount` probed bits. -/
theorem hashCallCounts {κ : Type} (hash : κ → ℕ → ℕ) (f : BloomFilter) (key : κ) :
    f.insertCalls hash key = f.numHashes ∧
    f.findCalls hash key ≤ f.numHashes ∧
    (f.find hash key = true → f.findCalls hash key = f.numHashes) ∧
    f.find hash key =
      (probeSeq hash f.size key f.numHashes 0).all
        (fun i => f.bitVec.getD i false) :=
  ⟨insertLoop_calls hash f.size key f.numHashes 0 f.bitVec f.numBitsSet,
   findLoop_calls_le hash f.size f.bitVec key f.numHashes 0,
   findLoop_true_calls hash f.size f.bitVec key f.numHashes 0,
   findLoop_eq_all hash f.size f.bitVec key f.numHashes 0⟩

/-- Counterexample to C7 as stated: on the freshly created (hence
reachable) filter with `numKeys = 1`, `numHashes = 2`, `p = 1/4`, a
`find` of key 0 hits a zero bit at the first probe and calls the hash
oracle only once, not `hashCount = 2` times. -/
theorem hashCallCounts_cex :
    (BloomFilter.create 1 2 ((1 : ℝ) / 4)).Reachable zeroHash ∧
    (BloomFilter.create 1 2 ((1 : ℝ) / 4)).numHashes = 2 ∧
    (BloomFilter.create 1 2 ((1 : ℝ) / 4)).findCalls zeroHash 0 ≠
      (BloomFilter.create 1 2 ((1 : ℝ) / 4)).numHashes := by
  refine ⟨BloomFilter.Reachable.create 1 2 ((1 : ℝ) / 4) le_rfl (by norm_num)
    (by norm_num) (by norm_num), ?_, ?_⟩
  · rfl
  · rw [create_eval_two]
    decide

/-- C8.  Total safety: on any reachable filter, every probed index
(`rawHash % bitCount` along the seed chain from seed 0) is below
`bitCount`, `insert` keeps the bit vector exactly `bitCount` entries
long with `bitCount` positive (so no bit access is out of range), and
`find` returns a boolean. -/
theorem operationsSafe {κ : Type} (hash : κ → ℕ → ℕ) (f : BloomFilter)
    (hf : f.Reachable hash) (key : κ) :
    (∀ i ∈ probeSeq hash f.size key f.numHashes 0, i < f.size) ∧
    (f.insert hash key).bitVec.length = (f.insert hash key).size ∧
    0 < (f.insert hash key).size ∧
    (f.find hash key = true ∨ f.find hash key = false) := by
  obtain ⟨hsz, hlen, _, _⟩ := reachable_inv hash f hf
  obtain ⟨hsz2, hlen2, _, _⟩ :=
    reachable_inv hash _ (BloomFilter.Reachable.step f key hf)
  refine ⟨probeSeq_lt hash f.size key hsz f.numHashes 0, hlen2, hsz2, ?_⟩
  cases f.find hash key
  · right; rfl
  · left; rfl

/-- Witness for C8 on a concrete reachable state and key. -/
theorem operationsSafe_witness :
    (∀ i ∈ probeSeq zeroHash (BloomFilter.create 1 1 ((1 : ℝ) / 2)).size 8
      (BloomFilter.create 1 1 ((1 : ℝ) / 2)).numHashes 0,
      i < (BloomFilter.create 1 1 ((1 : ℝ) / 2)).size) ∧
    0 < ((BloomFilter.create 1 1 ((1 : ℝ) / 2)).insert zeroHash 8).size := by
  have h := operationsSafe zeroHash _
    (BloomFilter.Reachable.create 1 1 ((1 : ℝ) / 2) le_rfl le_rfl
      (by norm_num) (by norm_num)) 8
  exact ⟨h.1, h.2.2.1⟩

/-- C9 (amended).  Query determinism: two `find` calls with the same key
and no intervening `insert` of ANY key (only other `find` queries in
between, which never mutate the state) yield the same boolean result. -/
theorem findDeterministic {κ : Type} (hash : κ → ℕ → ℕ) (f : BloomFilter)
    (key : κ) (ops : List (Op κ))
    (hops : ∀ op ∈ ops, ∀ k : κ, op ≠ Op.insert k) :
    (runOps hash f ops).find hash key = f.find hash key := by
  have hrun : runOps hash f ops = f := by
    induction ops with
    | nil => rfl
    | cons op rest ih =>
        cases op with
        | insert k => exact absurd rfl (hops _ (List.mem_cons_self ..) k)
        | find k =>
            show runOps hash f rest = f
            exact ih (fun op hop k => hops op (List.mem_cons_of_mem _ hop) k)
  rw [hrun]

/-- Witness for C9 (amended) with one intervening query. -/
theorem findDeterministic_witness :
    (runOps zeroHash (BloomFilter.create 1 1 ((1 : ℝ) / 2))
      [Op.find 9]).find zeroHash 3 =
      (BloomFilter.create 1 1 ((1 : ℝ) / 2)).find zeroHash 3 :=
  findDeterministic zeroHash _ 3 [Op.find 9] (by
    intro op hop k
    simp only [List.mem_singleton] at hop
    subst hop
    simp)

/-- Counterexample to C9 as stated: two `find` calls for key 5 with no
intervening insert OF KEY 5 — only an insert of the different key 7 —
give different results on a reachable filter, because the insert of 7
sets the bit probed by 5. -/
theorem findDeterministic_cex :
    (BloomFilter.create 1 1 ((1 : ℝ) / 2)).Reachable zeroHash ∧
    (5 : ℕ) ≠ 7 ∧
    (BloomFilter.create 1 1 ((1 : ℝ) / 2)).find zeroHash 5 = false ∧
    ((BloomFilter.create 1 1 ((1 : ℝ) / 2)).insert zeroHash 7).find zeroHash 5 =
      true := by
  refine ⟨BloomFilter.Reachable.create 1 1 ((1 : ℝ) / 2) le_rfl le_rfl
    (by norm_num) (by norm_num), by decide, ?_, ?_⟩
  · rw [create_eval_one]; decide
  · rw [create_eval_one]; decide

/-- C10.  Insert idempotence: re-inserting a key immediately after
inserting it leaves the filter state — bit vector and `setBitCount` —
exactly unchanged. -/
theorem insertIdempotent {κ : Type} (hash : κ → ℕ → ℕ) (f : BloomFilter)
    (hf : f.Reachable hash) (key : κ) :
    (f.insert hash key).insert hash key = f.insert hash key := by
  have hwf := reachable_WF hash f hf
  exact insert_noop hash (f.insert hash key) key
    (insert_sets_probes hash f key hwf)

/-- Witness for C10 on a concrete reachable state and key. -/
theorem insertIdempotent_witness :
    ((BloomFilter.create 1 1 ((1 : ℝ) / 2)).insert zeroHash 3).insert zeroHash 3 =
      (BloomFilter.create 1 1 ((1 : ℝ) / 2)).insert zeroHash 3 :=
  insertIdempotent zeroHash _
    (BloomFilter.Reachable.create 1 1 ((1 : ℝ) / 2) le_rfl le_rfl
      (by norm_num) (by norm_num)) 3

/-- Witness for C7 (amended) on a concrete filter and key. -/
theorem hashCallCounts_witness :
    (BloomFilter.create 1 1 ((1 : ℝ) / 2)).insertCalls zeroHash 2 =
      (BloomFilter.create 1 1 ((1 : ℝ) / 2)).numHashes ∧
    (BloomFilter.create 1 1 ((1 : ℝ) / 2)).findCalls zeroHash 2 ≤
      (BloomFilter.create 1 1 ((1 : ℝ) / 2)).numHashes := by
  have h := hashCallCounts zeroHash (BloomFilter.create 1 1 ((1 : ℝ) / 2)) 2
  exact ⟨h.1, h.2.1⟩
